import Mathlib

/-!
Verification of the slogx structured-logging extension library.

The development shallowly embeds the Go sources: levels are `Int`
(Go `Level` is a 64-bit `int`; all inputs considered stay far from
overflow), Go strings are lists of characters, fallible operations
return `Option`/a `Bool` error flag, and each composite handler's
`Handle` loop becomes a recursive function that also reports the
trace of inner-handler invocations it performed.
-/

namespace Slogx

/-- A Go string, modelled as its list of characters. -/
abbrev GoStr := List Char

/-! ### Level constants (src/level.go lines 14-27) -/

def LevelUnknown : Int := -2147483648
def LevelMin : Int := -2147483647
def LevelTrace : Int := -8
def LevelDebug : Int := -4
def LevelInfo : Int := 0
def LevelNotice : Int := 2
def LevelWarn : Int := 4
def LevelError : Int := 8
def LevelFatal : Int := 12
def LevelPanic : Int := 16
def LevelMax : Int := 2147483646
def LevelDisabled : Int := 2147483647

/-! ### Decimal formatting and parsing helpers

`natDigits` renders a natural number in decimal (most significant digit
first), as Go's `fmt` does; `digitsToNat`/`atoi` model `strconv.Atoi`
(sign handling, at least one digit, digits only; the 64-bit range check
is elided since every input considered is tiny). -/

def digitChar (d : Nat) : Char := Char.ofNat (48 + d)

def natDigitsCore : Nat → Nat → GoStr
  | 0, _ => []
  | fuel + 1, n =>
    if n < 10 then [digitChar n]
    else natDigitsCore fuel (n / 10) ++ [digitChar (n % 10)]

def natDigits (n : Nat) : GoStr := natDigitsCore (n + 1) n

/-- Go `fmt.Sprintf("%+d", v)`: always-signed decimal rendering. -/
def fmtPlus (v : Int) : GoStr :=
  if 0 ≤ v then '+' :: natDigits v.toNat else '-' :: natDigits (-v).toNat

def isDigitCh (c : Char) : Bool := 48 ≤ c.toNat && c.toNat ≤ 57

def digitsToNat : Nat → GoStr → Option Nat
  | acc, [] => some acc
  | acc, c :: rest =>
    if isDigitCh c then digitsToNat (acc * 10 + (c.toNat - 48)) rest else none

/-- Go `strconv.Atoi`: optional sign, then one or more digits. -/
def atoi : GoStr → Option Int
  | [] => none
  | '+' :: rest =>
    if rest = [] then none else (digitsToNat 0 rest).map Int.ofNat
  | '-' :: rest =>
    if rest = [] then none else (digitsToNat 0 rest).map (fun n => -(n : Int))
  | s => (digitsToNat 0 s).map Int.ofNat

/-- Go `strings.IndexAny(s, "+-")`: index of the first sign character. -/
def indexSign : GoStr → Option Nat
  | [] => none
  | c :: rest =>
    if c = '+' ∨ c = '-' then some 0 else (indexSign rest).map (· + 1)

/-- ASCII uppercase of one character, as Go `strings.ToUpper` does per
rune (Go compares and shifts the rune numerically). -/
def upChar (c : Char) : Char :=
  if 97 ≤ c.toNat ∧ c.toNat ≤ 122 then Char.ofNat (c.toNat - 32) else c

def upStr (s : GoStr) : GoStr := s.map upChar

/-! ### Level.String (src/level.go lines 106-136) -/

/-- The `str` closure inside `Level.String`. -/
def levelStrFn (base : GoStr) (val : Int) : GoStr :=
  if val = 0 then base else base ++ fmtPlus val

/-- `Level.String`: nearest-anchor name plus a signed offset suffix. -/
def levelString (l : Int) : GoStr :=
  if l = LevelMin then levelStrFn "MIN".toList 0
  else if l = LevelMax then levelStrFn "MAX".toList 0
  else if l ≤ LevelTrace then levelStrFn "TRACE".toList (l - LevelTrace)
  else if l ≤ LevelDebug then levelStrFn "DEBUG".toList (l - LevelDebug)
  else if l ≤ LevelInfo then levelStrFn "INFO".toList (l - LevelInfo)
  else if l ≤ LevelNotice then levelStrFn "NOTICE".toList (l - LevelNotice)
  else if l ≤ LevelWarn then levelStrFn "WARN".toList (l - LevelWarn)
  else if l ≤ LevelError then levelStrFn "ERROR".toList (l - LevelError)
  else if l ≤ LevelFatal then levelStrFn "FATAL".toList (l - LevelFatal)
  else levelStrFn "PANIC".toList (l - LevelPanic)

/-! ### Level.parse (src/level.go lines 153-191) -/

/-- The name-to-anchor switch of `Level.parse` (uppercased names). -/
def nameTable : List (GoStr × Int) :=
  [("MIN".toList, LevelMin), ("UNK".toList, LevelMin), ("UNKNOWN".toList, LevelMin),
   ("MAX".toList, LevelMax), ("DIS".toList, LevelMax), ("DISABLED".toList, LevelMax),
   ("TRC".toList, LevelTrace), ("TRACE".toList, LevelTrace),
   ("DBG".toList, LevelDebug), ("DEBUG".toList, LevelDebug),
   ("INF".toList, LevelInfo), ("INFO".toList, LevelInfo),
   ("NOT".toList, LevelNotice), ("NOTICE".toList, LevelNotice),
   ("WRN".toList, LevelWarn), ("WARN".toList, LevelWarn), ("WARNING".toList, LevelWarn),
   ("ERR".toList, LevelError), ("ERROR".toList, LevelError),
   ("FTL".toList, LevelFatal), ("FATAL".toList, LevelFatal),
   ("PAN".toList, LevelPanic), ("PANIC".toList, LevelPanic)]

def lookupName (n : GoStr) : Option Int :=
  (nameTable.find? (fun p => p.1 = n)).map (·.2)

/-- `(*Level).parse`, threading the receiver: given the current value `l`
and the input string `s`, return the new value and an error flag. On any
error the Go code returns before assigning `*l`, so the old value is kept. -/
def parseUpd (l : Int) (s : GoStr) : Int × Bool :=
  let nameOff : Option (GoStr × Int) :=
    match indexSign s with
    | none => some (s, 0)
    | some i =>
      match atoi (s.drop i) with
      | none => none
      | some k => some (s.take i, k)
  match nameOff with
  | none => (l, true)
  | some (name, off) =>
    match lookupName (upStr name) with
    | none => (l, true)
    | some base => (base + off, false)

/-! ### Attributes (src/attr.go)

An attribute value is a primitive, a nested group of key/value pairs, or
a lazy (LogValuer) value that `slog.Value.Resolve` unwraps. Keys are
strings; primitive payloads are irrelevant to the claims and are
modelled as integers. -/

inductive AVal where
  | prim : Int → AVal
  | group : List (String × AVal) → AVal
  | lazyv : AVal → AVal

/-- `slog.Value.Resolve`: repeatedly unwrap lazy values; primitives and
groups resolve to themselves. -/
def resolveVal : AVal → AVal
  | .lazyv v => resolveVal v
  | v => v

mutual

/-- The per-attribute step of `UniqAttrs` (src/attr.go lines 235-240):
resolve the value, then rebuild groups from their deduplicated members.
Resolution (`Value.Resolve`) is fused into the match on lazy values;
`uniqVal_resolveVal` below recovers the resolve-then-inspect shape of
the Go code. -/
def uniqVal (v : AVal) : AVal :=
  match v with
  | .lazyv w => uniqVal w
  | .group gs => .group (uniqRev gs.reverse [])
  | .prim n => .prim n
termination_by sizeOf v
decreasing_by
all_goals simp_wf
have hrev : sizeOf gs.reverse = sizeOf gs :=
  (List.reverse_perm gs).sizeOf_eq_sizeOf
omega

/-- The backward scan of `UniqAttrs` (src/attr.go lines 231-242), applied
to the already-reversed attribute list, with the keys seen so far:
skip a seen key, otherwise emit the processed value and record the key. -/
def uniqRev (l : List (String × AVal)) (seen : List String) : List (String × AVal) :=
  match l with
  | [] => []
  | (k, v) :: rest =>
    if k ∈ seen then uniqRev rest seen
    else (k, uniqVal v) :: uniqRev rest (k :: seen)
termination_by sizeOf l
decreasing_by
all_goals simp_wf <;> omega

end

/-- `UniqAttrs` (src/attr.go lines 227-244): scan from the end of the
slice backward, keeping the first (i.e. originally last) occurrence of
each key. -/
def uniqAttrs (attrs : List (String × AVal)) : List (String × AVal) :=
  uniqRev attrs.reverse []

/-- `ConsolidateAttrs` (src/attr.go lines 20-37): append the record
attributes — wrapped into a single group attribute when the active group
name is non-empty — to the handler attributes, then deduplicate. -/
def consolidateAttrs (attrs : List (String × AVal)) (grp : String)
    (record : List (String × AVal)) : List (String × AVal) :=
  if grp = "" then uniqAttrs (attrs ++ record)
  else uniqAttrs (attrs ++ [(grp, AVal.group record)])

/-- Association lookup by key, first match (specification helper). -/
def lookupA (k : String) : List (String × AVal) → Option AVal
  | [] => none
  | (k0, v) :: rest => if k0 = k then some v else lookupA k rest

/-! ### Composite handlers

An inner handler is abstracted by what the composite observes of it:
for multi, its `Handle` on the given record (`R → Option E`, `none`
meaning success); for failover/round-robin, additionally its `Enabled`
verdict for the record's level (a `Bool`). The loop functions return
the trace of inner `Handle` invocations so the claims about call order
can be stated. -/

section Handlers

variable {R E : Type}

/-- The pipe-function loop of `pipeHandler.Handle` (src/handler/pipe.go
lines 82-90): thread the cloned record through the functions. Returns
the record passed to each invoked function, the final record, and the
early-return error (set only when a function fails while
ContinueOnError is false). -/
def runPipeFns (cont : Bool) : List (R → R × Option E) → R → List R × R × Option E
  | [], r0 => ([], r0, none)
  | fn :: rest, r0 =>
    match fn r0 with
    | (r1, some e) =>
      if cont then
        match runPipeFns cont rest r1 with
        | (ins, fin, res) => (r0 :: ins, fin, res)
      else ([r0], r1, some e)
    | (r1, none) =>
      match runPipeFns cont rest r1 with
      | (ins, fin, res) => (r0 :: ins, fin, res)

/-- `pipeHandler.Handle` (src/handler/pipe.go lines 76-94): run the pipe
functions on a clone, then hand the original record `r` to the next
handler. Returns the call result and the record forwarded to the next
handler, if the next handler was invoked. With no next handler the Go
code returns nil without running anything. -/
def pipeHandle (cont : Bool) (fns : List (R → R × Option E))
    (next : Option (R → Option E)) (r : R) : Option E × Option R :=
  match next with
  | none => (none, none)
  | some nh =>
    match runPipeFns cont fns r with
    | (_, _, some e) => (some e, none)
    | (_, _, none) => (nh r, some r)

/-- The record each pipe function should receive: the iterated images of
the cloned record, in list order (specification helper). -/
def pipeInputsSpec : List (R → R × Option E) → R → List R
  | [], _ => []
  | fn :: rest, r0 => r0 :: pipeInputsSpec rest (fn r0).1

/-- The loop of `multiHandler.handle` (src/unnamed/part_013 lines
430-437), synchronous mode, with `i` the index of the first remaining
handler: write to every handler, stopping at the first error only when
ContinueOnError is false. Returns the indices invoked and the error. -/
def multiGo (cont : Bool) (r : R) : Nat → List (R → Option E) → List Nat × Option E
  | _, [] => ([], none)
  | i, h :: rest =>
    match h r with
    | some e =>
      if cont then
        match multiGo cont r (i + 1) rest with
        | (t, res) => (i :: t, res)
      else ([i], some e)
    | none =>
      match multiGo cont r (i + 1) rest with
      | (t, res) => (i :: t, res)

/-- `multiHandler.Handle` in synchronous mode (EnableAsync=false), which
just runs `multiHandler.handle` (src/unnamed/part_013 lines 377-388). -/
def multiHandle (cont : Bool) (handlers : List (R → Option E)) (r : R) :
    List Nat × Option E :=
  multiGo cont r 0 handlers

/-- The loop of `failoverHandler.Handle` (src/handler/failover.go lines
75-84), with `i` the index of the first remaining handler and `err`
Go's running `err` variable: skip disabled handlers, return nil at the
first successful `Handle`, otherwise fall through to the last error. -/
def failoverGo (r : R) : Nat → Option E → List (Bool × (R → Option E)) → List Nat × Option E
  | _, err, [] => ([], err)
  | i, err, (en, h) :: rest =>
    if en then
      match h r with
      | none => ([i], none)
      | some e =>
        match failoverGo r (i + 1) (some e) rest with
        | (t, res) => (i :: t, res)
    else failoverGo r (i + 1) err rest

/-- `failoverHandler.Handle` (src/handler/failover.go lines 71-85):
returns the indices of the inner handlers whose `Handle` was attempted,
in order, and the call's error result. -/
def failoverHandle (hs : List (Bool × (R → Option E))) (r : R) : List Nat × Option E :=
  failoverGo r 0 none hs

/-- The rotation list `handlers[lastIndex:] + handlers[:lastIndex]`
built at the top of `roundRobinHandler.Handle`. -/
def rrRotation {α : Type} (hs : List α) (last : Nat) : List α :=
  hs.drop last ++ hs.take last

/-- The scan loop of `roundRobinHandler.Handle` (src/unnamed/part_011
lines 185-192) over the rotated list, with `i` the rotated position and
`err` Go's running error: on the first success return nil together with
the position stored into `lastIndex`. -/
def rrGo (r : R) : Nat → Option E → List (Bool × (R → Option E)) → Option E × Option Nat
  | _, err, [] => (err, none)
  | i, err, (en, h) :: rest =>
    if en then
      match h r with
      | none => (none, some i)
      | some e => rrGo r (i + 1) (some e) rest
    else rrGo r (i + 1) err rest

/-- `roundRobinHandler.Handle` (src/unnamed/part_011 lines 180-196):
returns the error result and the new `lastIndex` (which only changes
when some handler succeeded). -/
def rrHandle (hs : List (Bool × (R → Option E))) (last : Nat) (r : R) : Option E × Nat :=
  match rrGo r 0 none (rrRotation hs last) with
  | (res, some w) => (res, w)
  | (res, none) => (res, last)

/-- The positions of the enabled handlers, in order (specification
helper). -/
def enabledIndices : List (Bool × (R → Option E)) → List Nat
  | [] => []
  | (en, _) :: rest =>
    if en then 0 :: (enabledIndices rest).map (· + 1)
    else (enabledIndices rest).map (· + 1)

/-- The position of the first handler that is enabled and handles `r`
without error (specification helper). -/
def winIdx (r : R) : List (Bool × (R → Option E)) → Option Nat
  | [] => none
  | (en, h) :: rest =>
    if en && (h r).isNone then some 0 else (winIdx r rest).map (· + 1)

end Handlers

/-- The `Level()` aggregation loop shared by the failover handler
(src/handler/failover.go lines 90-100) and the round-robin handler
(src/unnamed/part_011 lines 327-337): each inner handler contributes
`some level` when it implements slogx.DynamicLevelHandler and `none`
otherwise; starting from LevelPanic, keep any exposed level that is
strictly lower than the value so far. -/
def compositeLevel (ls : List (Option Int)) : Int :=
  ls.foldl (fun acc o =>
    match o with
    | some lv => if lv < acc then lv else acc
    | none => acc) LevelPanic

/-! ## Helper lemmas: characters and decimal digits -/

theorem char_toNat_ofNat {m : Nat} (h : m < 55296) : (Char.ofNat m).toNat = m := by
  have hv : m.isValidChar := Or.inl h
  simp only [Char.ofNat, dif_pos hv]
  simp [Char.ofNatAux, Char.toNat, UInt32.toNat]

theorem digitChar_toNat {d : Nat} (h : d < 10) : (digitChar d).toNat = 48 + d :=
  char_toNat_ofNat (by omega)

theorem isDigitCh_digitChar {d : Nat} (h : d < 10) : isDigitCh (digitChar d) = true := by
  simp only [isDigitCh, digitChar_toNat h]
  simp only [Bool.and_eq_true, decide_eq_true_eq]
  omega

theorem natDigitsCore_ne_nil {fuel n : Nat} (h : n < fuel) : natDigitsCore fuel n ≠ [] := by
  cases fuel with
  | zero => omega
  | succ f =>
    simp only [natDigitsCore]
    split <;> simp

theorem digitsToNat_append : ∀ (l₁ l₂ : GoStr) (acc : Nat),
    digitsToNat acc (l₁ ++ l₂) =
      match digitsToNat acc l₁ with
      | none => none
      | some m => digitsToNat m l₂ := by
  intro l₁
  induction l₁ with
  | nil => intro l₂ acc; rfl
  | cons c t ih =>
    intro l₂ acc
    simp only [List.cons_append, digitsToNat, List.append_eq]
    by_cases hd : isDigitCh c = true
    · rw [if_pos hd, if_pos hd, ih]
    · rw [if_neg hd, if_neg hd]

theorem digitsToNat_natDigitsCore : ∀ (fuel n : Nat), n < fuel →
    digitsToNat 0 (natDigitsCore fuel n) = some n := by
  intro fuel
  induction fuel with
  | zero => intro n h; omega
  | succ f ih =>
    intro n h
    simp only [natDigitsCore]
    by_cases h10 : n < 10
    · rw [if_pos h10]
      simp only [digitsToNat, if_pos (isDigitCh_digitChar h10), digitChar_toNat h10,
        Option.some.injEq]
      omega
    · rw [if_neg h10]
      rw [digitsToNat_append]
      rw [ih (n / 10) (by omega)]
      have h9 : n % 10 < 10 := Nat.mod_lt _ (by omega)
      simp only [digitsToNat, if_pos (isDigitCh_digitChar h9), digitChar_toNat h9,
        Option.some.injEq]
      omega

theorem natDigits_ne_nil (n : Nat) : natDigits n ≠ [] :=
  natDigitsCore_ne_nil (Nat.lt_succ_self n)

theorem digitsToNat_natDigits (n : Nat) : digitsToNat 0 (natDigits n) = some n :=
  digitsToNat_natDigitsCore (n + 1) n (Nat.lt_succ_self n)

theorem atoi_fmtPlus (v : Int) : atoi (fmtPlus v) = some v := by
  unfold fmtPlus
  by_cases hv : 0 ≤ v
  · rw [if_pos hv]
    show atoi ('+' :: natDigits v.toNat) = some v
    simp [atoi, natDigits_ne_nil, digitsToNat_natDigits]
    omega
  · rw [if_neg hv]
    show atoi ('-' :: natDigits (-v).toNat) = some v
    simp [atoi, natDigits_ne_nil, digitsToNat_natDigits]
    omega

theorem fmtPlus_decomp (v : Int) :
    ∃ c rest, fmtPlus v = c :: rest ∧ (c = '+' ∨ c = '-') := by
  unfold fmtPlus
  split
  · exact ⟨'+', _, rfl, Or.inl rfl⟩
  · exact ⟨'-', _, rfl, Or.inr rfl⟩

/-! ## Helper lemmas: sign search and upper-casing -/

theorem indexSign_eq_none {s : GoStr} (h : ∀ c ∈ s, ¬(c = '+' ∨ c = '-')) :
    indexSign s = none := by
  induction s with
  | nil => rfl
  | cons c t ih =>
    simp only [indexSign]
    rw [if_neg (h c (by simp)), ih (fun x hx => h x (by simp [hx]))]
    rfl

theorem indexSign_append {s : GoStr} (h : ∀ c ∈ s, ¬(c = '+' ∨ c = '-'))
    {c : Char} (hc : c = '+' ∨ c = '-') (rest : GoStr) :
    indexSign (s ++ c :: rest) = some s.length := by
  induction s with
  | nil => simp [indexSign, if_pos hc]
  | cons a t ih =>
    simp only [List.cons_append, indexSign, List.append_eq]
    rw [if_neg (h a (by simp)), ih (fun x hx => h x (by simp [hx]))]
    simp

theorem upChar_sign_iff (c : Char) :
    (upChar c = '+' ∨ upChar c = '-') ↔ (c = '+' ∨ c = '-') := by
  unfold upChar
  split
  · rename_i hlc
    have hplus : ('+').toNat = 43 := by decide
    have hminus : ('-').toNat = 45 := by decide
    constructor
    · rintro (h1 | h1) <;>
        · have := congrArg Char.toNat h1
          rw [char_toNat_ofNat (by omega)] at this
          omega
    · rintro (h1 | h1) <;>
        · have := congrArg Char.toNat h1
          omega
  · exact Iff.rfl

theorem no_sign_of_upStr {s t : GoStr} (hst : upStr s = t)
    (ht : ∀ c ∈ t, ¬(c = '+' ∨ c = '-')) : ∀ c ∈ s, ¬(c = '+' ∨ c = '-') := by
  intro c hc hsig
  have hmem : upChar c ∈ t := hst ▸ List.mem_map_of_mem upChar hc
  exact ht (upChar c) hmem ((upChar_sign_iff c).mpr hsig)

/-! ## Helper lemmas: Level.parse -/

theorem parseUpd_name (old : Int) (s : GoStr) (base : Int)
    (hns : ∀ c ∈ s, ¬(c = '+' ∨ c = '-'))
    (hlook : lookupName (upStr s) = some base) :
    parseUpd old s = (base, false) := by
  simp [parseUpd, indexSign_eq_none hns, hlook]

theorem parseUpd_name_offset (old : Int) (s : GoStr) (base k : Int)
    (hns : ∀ c ∈ s, ¬(c = '+' ∨ c = '-'))
    (hlook : lookupName (upStr s) = some base) :
    parseUpd old (s ++ fmtPlus k) = (base + k, false) := by
  obtain ⟨c, rest, hfp, hc⟩ := fmtPlus_decomp k
  have hidx : indexSign (s ++ fmtPlus k) = some s.length := by
    rw [hfp]
    exact indexSign_append hns hc rest
  have hdrop : (s ++ fmtPlus k).drop s.length = fmtPlus k := List.drop_left s _
  have htake : (s ++ fmtPlus k).take s.length = s := List.take_left s _
  simp [parseUpd, hidx, hdrop, htake, atoi_fmtPlus, hlook]

theorem parseUpd_levelStrFn (old : Int) (B : GoStr) (base v : Int)
    (hns : ∀ c ∈ B, ¬(c = '+' ∨ c = '-'))
    (hlook : lookupName (upStr B) = some base) :
    parseUpd old (levelStrFn B v) = (base + v, false) := by
  unfold levelStrFn
  split
  · rename_i h0
    rw [parseUpd_name old B base hns hlook, h0, add_zero]
  · exact parseUpd_name_offset old B base v hns hlook

theorem parseUpd_levelString (old l : Int) : parseUpd old (levelString l) = (l, false) := by
  unfold levelString
  split_ifs with h1 h2 h3 h4 h5 h6 h7 h8 h9
  · rw [parseUpd_levelStrFn old _ LevelMin 0 (by decide) (by decide)]
    rw [h1, add_zero]
  · rw [parseUpd_levelStrFn old _ LevelMax 0 (by decide) (by decide)]
    rw [h2, add_zero]
  · rw [parseUpd_levelStrFn old _ LevelTrace (l - LevelTrace) (by decide) (by decide)]
    congr 1
    ring
  · rw [parseUpd_levelStrFn old _ LevelDebug (l - LevelDebug) (by decide) (by decide)]
    congr 1
    ring
  · rw [parseUpd_levelStrFn old _ LevelInfo (l - LevelInfo) (by decide) (by decide)]
    congr 1
    ring
  · rw [parseUpd_levelStrFn old _ LevelNotice (l - LevelNotice) (by decide) (by decide)]
    congr 1
    ring
  · rw [parseUpd_levelStrFn old _ LevelWarn (l - LevelWarn) (by decide) (by decide)]
    congr 1
    ring
  · rw [parseUpd_levelStrFn old _ LevelError (l - LevelError) (by decide) (by decide)]
    congr 1
    ring
  · rw [parseUpd_levelStrFn old _ LevelFatal (l - LevelFatal) (by decide) (by decide)]
    congr 1
    ring
  · rw [parseUpd_levelStrFn old _ LevelPanic (l - LevelPanic) (by decide) (by decide)]
    congr 1
    ring

theorem parseUpd_cases (old : Int) (s : GoStr) :
    parseUpd old s = (old, true) ∨ (parseUpd old s).2 = false := by
  unfold parseUpd
  rcases hidx : indexSign s with _ | i <;> simp only [hidx]
  · rcases hlook : lookupName (upStr s) with _ | base <;> simp [hlook]
  · rcases hat : atoi (s.drop i) with _ | k <;> simp only [hat]
    · simp
    · rcases hlook : lookupName (upStr (s.take i)) with _ | base <;> simp [hlook]

theorem nameTable_no_sign : ∀ p ∈ nameTable, ∀ c ∈ p.1, ¬(c = '+' ∨ c = '-') := by decide

theorem nameTable_lookup : ∀ p ∈ nameTable, lookupName p.1 = some p.2 := by decide

/-! ## Claim C7 -/

/-- C7: for every anchor or alias name in the parse table (matched
case-insensitively) and every integer offset, parsing recovers the
integer level exactly: `parse (String l) = l` for all levels `l`,
`parse` of a name (in any casing) with a `%+d` offset suffix yields the
anchor value plus the offset, and a string without a sign whose
uppercased form is not in the table fails with an error. -/
theorem level_string_parse_roundtrip :
    (∀ old l : Int, parseUpd old (levelString l) = (l, false)) ∧
    (∀ p ∈ nameTable, ∀ s : GoStr, upStr s = p.1 →
        (∀ old : Int, parseUpd old s = (p.2, false)) ∧
        (∀ old k : Int, parseUpd old (s ++ fmtPlus k) = (p.2 + k, false))) ∧
    (∀ (old : Int) (s : GoStr), indexSign s = none → lookupName (upStr s) = none →
        parseUpd old s = (old, true)) := by
  refine ⟨parseUpd_levelString, ?_, ?_⟩
  · intro p hp s hs
    have hns : ∀ c ∈ s, ¬(c = '+' ∨ c = '-') :=
      no_sign_of_upStr hs (nameTable_no_sign p hp)
    have hlook : lookupName (upStr s) = some p.2 := by
      rw [hs]
      exact nameTable_lookup p hp
    exact ⟨fun old => parseUpd_name old s p.2 hns hlook,
           fun old k => parseUpd_name_offset old s p.2 k hns hlook⟩
  · intro old s h1 h2
    simp [parseUpd, h1, h2]

theorem level_string_parse_roundtrip_witness :
    parseUpd 0 ("inf".toList ++ fmtPlus 3) = (3, false) ∧
    parseUpd 7 "BOGUS".toList = (7, true) := by
  constructor
  · have h := ((level_string_parse_roundtrip.2.1 ("INF".toList, LevelInfo) (by decide)
      "inf".toList (by decide)).2) 0 3
    simpa [LevelInfo] using h
  · exact level_string_parse_roundtrip.2.2 7 "BOGUS".toList (by decide) (by decide)

/-! ## Claim C9 -/

/-- C9: when Level text/JSON unmarshalling fails (unknown name or
malformed offset), the parse reports an error and the level variable
being unmarshalled into keeps its prior value. -/
theorem level_parse_error_preserves_value (old : Int) (s : GoStr)
    (h : (parseUpd old s).2 = true) : (parseUpd old s).1 = old := by
  rcases parseUpd_cases old s with h1 | h1
  · rw [h1]
  · rw [h1] at h
    exact absurd h (by simp)

theorem level_parse_error_preserves_value_witness :
    (parseUpd 12 "WOOF".toList).1 = 12 :=
  level_parse_error_preserves_value 12 "WOOF".toList (by decide)

/-! ## Claim C10 -/

/-- C10 counterexample: `"UNK-1"` parses successfully and the resulting
integer is `LevelUnknown`, contradicting the claim that no successful
parse of the UNK/UNKNOWN/DIS/DISABLED names ever produces
`LevelUnknown` or `LevelDisabled`. -/
theorem parse_unk_counterexample :
    parseUpd 0 ("UNK".toList ++ fmtPlus (-1)) = (LevelUnknown, false) ∧
    parseUpd 0 ("DIS".toList ++ fmtPlus 1) = (LevelDisabled, false) := by decide

/-- C10 amended: parsing UNK/UNKNOWN (with any offset) yields `LevelMin`
plus the offset and DIS/DISABLED yields `LevelMax` plus the offset —
never the sentinel constants `LevelUnknown`/`LevelDisabled` as the
anchor (those differ from `LevelMin`/`LevelMax`); a nonzero offset can
however make the numeric result coincide with a sentinel, e.g.
`"UNK-1"` yields the value of `LevelUnknown`. -/
theorem parse_unk_dis_amended :
    (∀ old k : Int, parseUpd old ("UNK".toList ++ fmtPlus k) = (LevelMin + k, false)) ∧
    (∀ old k : Int, parseUpd old ("UNKNOWN".toList ++ fmtPlus k) = (LevelMin + k, false)) ∧
    (∀ old k : Int, parseUpd old ("DIS".toList ++ fmtPlus k) = (LevelMax + k, false)) ∧
    (∀ old k : Int, parseUpd old ("DISABLED".toList ++ fmtPlus k) = (LevelMax + k, false)) ∧
    (∀ old : Int, parseUpd old "UNK".toList = (LevelMin, false)) ∧
    (∀ old : Int, parseUpd old "DIS".toList = (LevelMax, false)) ∧
    LevelMin ≠ LevelUnknown ∧ LevelMax ≠ LevelDisabled ∧
    parseUpd 0 ("UNK".toList ++ fmtPlus (-1)) = (LevelUnknown, false) := by
  refine ⟨?_, ?_, ?_, ?_, ?_, ?_, by decide, by decide, by decide⟩
  · exact fun old k => parseUpd_name_offset old _ LevelMin k (by decide) (by decide)
  · exact fun old k => parseUpd_name_offset old _ LevelMin k (by decide) (by decide)
  · exact fun old k => parseUpd_name_offset old _ LevelMax k (by decide) (by decide)
  · exact fun old k => parseUpd_name_offset old _ LevelMax k (by decide) (by decide)
  · exact fun old => parseUpd_name old _ LevelMin (by decide) (by decide)
  · exact fun old => parseUpd_name old _ LevelMax (by decide) (by decide)

/-! ## Helper lemmas: attribute deduplication -/

theorem uniqRev_nil (seen : List String) : uniqRev [] seen = [] := by
  simp [uniqRev]

theorem uniqRev_cons (k : String) (v : AVal) (rest : List (String × AVal))
    (seen : List String) :
    uniqRev ((k, v) :: rest) seen =
      if k ∈ seen then uniqRev rest seen
      else (k, uniqVal v) :: uniqRev rest (k :: seen) := by
  rw [uniqRev]

theorem uniqVal_prim (n : Int) : uniqVal (AVal.prim n) = AVal.prim n := by
  rw [uniqVal]

theorem uniqVal_lazyv (v : AVal) : uniqVal (AVal.lazyv v) = uniqVal v := by
  rw [uniqVal]

theorem uniqVal_group (gs : List (String × AVal)) :
    uniqVal (AVal.group gs) = AVal.group (uniqAttrs gs) := by
  rw [uniqVal, uniqAttrs]

/-- `uniqVal` is exactly the Go shape: resolve the value first, then
deduplicate group members. -/
theorem uniqVal_resolveVal : ∀ v : AVal,
    uniqVal v = match resolveVal v with
      | AVal.group gs => AVal.group (uniqAttrs gs)
      | w => w := by
  suffices h : ∀ (n : Nat) (v : AVal), sizeOf v ≤ n →
      uniqVal v = match resolveVal v with
        | AVal.group gs => AVal.group (uniqAttrs gs)
        | w => w by
    exact fun v => h (sizeOf v) v le_rfl
  intro n
  induction n with
  | zero =>
    intro v hv
    exfalso
    cases v <;> simp at hv
  | succ m ih =>
    intro v hv
    cases v with
    | prim n0 => rw [uniqVal_prim]; rfl
    | group gs => rw [uniqVal_group]; rfl
    | lazyv w =>
      rw [uniqVal_lazyv]
      exact ih w (by simp only [AVal.lazyv.sizeOf_spec] at hv; omega)

theorem uniqRev_keys_not_seen : ∀ (l : List (String × AVal)) (seen : List String)
    (k : String), k ∈ (uniqRev l seen).map Prod.fst → k ∉ seen := by
  intro l
  induction l with
  | nil => intro seen k h; rw [uniqRev_nil] at h; simp at h
  | cons a rest ih =>
    obtain ⟨ka, va⟩ := a
    intro seen k h
    rw [uniqRev_cons] at h
    by_cases hks : ka ∈ seen
    · rw [if_pos hks] at h
      exact ih seen k h
    · rw [if_neg hks] at h
      simp only [List.map_cons, List.mem_cons] at h
      rcases h with h | h
      · subst h
        exact hks
      · intro hk
        exact (ih (ka :: seen) k h) (by simp [hk])

theorem uniqRev_keys_nodup : ∀ (l : List (String × AVal)) (seen : List String),
    ((uniqRev l seen).map Prod.fst).Nodup := by
  intro l
  induction l with
  | nil => intro seen; rw [uniqRev_nil]; simp
  | cons a rest ih =>
    obtain ⟨ka, va⟩ := a
    intro seen
    rw [uniqRev_cons]
    by_cases hks : ka ∈ seen
    · rw [if_pos hks]
      exact ih seen
    · rw [if_neg hks]
      simp only [List.map_cons, List.nodup_cons]
      refine ⟨fun hmem => ?_, ih _⟩
      exact (uniqRev_keys_not_seen rest (ka :: seen) ka hmem) (by simp)

theorem uniqRev_keys_mem : ∀ (l : List (String × AVal)) (seen : List String)
    (k : String),
    k ∈ (uniqRev l seen).map Prod.fst ↔ (k ∈ l.map Prod.fst ∧ k ∉ seen) := by
  intro l
  induction l with
  | nil => intro seen k; rw [uniqRev_nil]; simp
  | cons a rest ih =>
    obtain ⟨ka, va⟩ := a
    intro seen k
    rw [uniqRev_cons]
    by_cases hks : ka ∈ seen
    · rw [if_pos hks, ih]
      simp only [List.map_cons, List.mem_cons]
      constructor
      · rintro ⟨h1, h2⟩
        exact ⟨Or.inr h1, h2⟩
      · rintro ⟨h1 | h1, h2⟩
        · exact absurd (h1 ▸ hks) h2
        · exact ⟨h1, h2⟩
    · rw [if_neg hks]
      simp only [List.map_cons, List.mem_cons, ih]
      constructor
      · rintro (h | ⟨h1, h2⟩)
        · exact ⟨Or.inl h, h ▸ hks⟩
        · exact ⟨Or.inr h1, fun hk => h2 (by simp [hk])⟩
      · rintro ⟨h1 | h1, h2⟩
        · exact Or.inl h1
        · by_cases hkka : k = ka
          · exact Or.inl hkka
          · exact Or.inr ⟨h1, by simp [hkka, h2]⟩

theorem uniqRev_lookup : ∀ (l : List (String × AVal)) (seen : List String)
    (k : String), k ∉ seen →
    lookupA k (uniqRev l seen) = (lookupA k l).map uniqVal := by
  intro l
  induction l with
  | nil => intro seen k _; rw [uniqRev_nil]; rfl
  | cons a rest ih =>
    obtain ⟨ka, va⟩ := a
    intro seen k hk
    rw [uniqRev_cons]
    by_cases hks : ka ∈ seen
    · rw [if_pos hks, ih seen k hk]
      have hne : ¬(ka = k) := fun h => hk (h ▸ hks)
      simp [lookupA, hne]
    · rw [if_neg hks]
      by_cases hkka : ka = k
      · subst hkka
        simp [lookupA]
      · have hrec := ih (ka :: seen) k
          (by rw [List.mem_cons]; push_neg; exact ⟨fun h => hkka h.symm, hk⟩)
        simp [lookupA, hkka, hrec]

/-! ## Claim C6 -/

/-- C6: `UniqAttrs` returns a sequence in which every key of the input
appears exactly once (nodup keys, same key set); the value kept for a
key is the processed value of its last occurrence (the first match in
the reversed list), where processing resolves lazy values and
recursively deduplicates group members; and concretely
Uniq [("a",1),("a",2)] = [("a",2)]. -/
theorem uniq_last_write_wins :
    (∀ attrs : List (String × AVal), ((uniqAttrs attrs).map Prod.fst).Nodup) ∧
    (∀ (attrs : List (String × AVal)) (k : String),
        k ∈ (uniqAttrs attrs).map Prod.fst ↔ k ∈ attrs.map Prod.fst) ∧
    (∀ (attrs : List (String × AVal)) (k : String),
        lookupA k (uniqAttrs attrs) = (lookupA k attrs.reverse).map uniqVal) ∧
    (∀ v : AVal, uniqVal v = match resolveVal v with
        | AVal.group gs => AVal.group (uniqAttrs gs)
        | w => w) ∧
    uniqAttrs [("a", AVal.prim 1), ("a", AVal.prim 2)] = [("a", AVal.prim 2)] := by
  refine ⟨?_, ?_, ?_, uniqVal_resolveVal, ?_⟩
  · intro attrs
    exact uniqRev_keys_nodup attrs.reverse []
  · intro attrs k
    rw [uniqAttrs, uniqRev_keys_mem]
    simp
  · intro attrs k
    exact uniqRev_lookup attrs.reverse [] k (by simp)
  · simp [uniqAttrs, uniqRev_cons, uniqRev_nil, uniqVal_prim]

/-! ## Claim C3 -/

/-- C3 counterexample: for handler attrs [("h",1)], active group "g" and
record attrs [("r",2)], `ConsolidateAttrs` does NOT return
[("h",1), ("g",[("r",2)])]: the dedup scan runs from the end backward
and appends as it goes, so the group attribute comes out first. -/
theorem consolidate_claim_counterexample :
    consolidateAttrs [("h", AVal.prim 1)] "g" [("r", AVal.prim 2)] ≠
      [("h", AVal.prim 1), ("g", AVal.group [("r", AVal.prim 2)])] := by
  simp [consolidateAttrs, uniqAttrs, uniqRev_cons, uniqRev_nil, uniqVal_prim, uniqVal_group]

/-- C3 amended: the result is the handler attributes with the single
group attribute (group name wrapping the record attributes) appended and
then deduplicated, where deduplication emits attributes in reverse scan
order: concretely [("g", [("r",2)]), ("h",1)]. -/
theorem consolidate_group_amended :
    consolidateAttrs [("h", AVal.prim 1)] "g" [("r", AVal.prim 2)] =
      uniqAttrs ([("h", AVal.prim 1)] ++ [("g", AVal.group [("r", AVal.prim 2)])]) ∧
    consolidateAttrs [("h", AVal.prim 1)] "g" [("r", AVal.prim 2)] =
      [("g", AVal.group [("r", AVal.prim 2)]), ("h", AVal.prim 1)] := by
  constructor
  · simp [consolidateAttrs]
  · simp [consolidateAttrs, uniqAttrs, uniqRev_cons, uniqRev_nil, uniqVal_prim, uniqVal_group]

/-! ## Helper lemmas: index arithmetic on traces -/

theorem range_shift (n i : Nat) :
    (List.range (n + 1)).map (· + i) = i :: (List.range n).map (· + (i + 1)) := by
  rw [List.range_succ_eq_map, List.map_cons, List.map_map]
  refine congrArg₂ List.cons (by omega) ?_
  exact List.map_congr_left fun x _ => by simp [Function.comp]; omega

theorem map_add_shift (l : List Nat) (i : Nat) :
    (l.map (· + 1)).map (· + i) = l.map (· + (i + 1)) := by
  rw [List.map_map]
  exact List.map_congr_left fun x _ => by simp [Function.comp]; omega

theorem map_add_zero (l : List Nat) : l.map (· + 0) = l := by
  have h : l.map (· + 0) = l.map id := List.map_congr_left fun x _ => Nat.add_zero x
  rw [h, List.map_id]

/-! ## Claim C2 -/

theorem multiGo_true_spec {R E : Type} (r : R) :
    ∀ (hs : List (R → Option E)) (i : Nat),
      multiGo true r i hs = ((List.range hs.length).map (· + i), none) := by
  intro hs
  induction hs with
  | nil => intro i; rfl
  | cons h rest ih =>
    intro i
    simp only [multiGo, List.length_cons, range_shift]
    cases h r <;> simp [ih (i + 1)]

/-- C2 counterexample: with ContinueOnError=true (synchronous mode) and a
single failing inner handler, Handle returns nil rather than the last
error encountered, although an inner handler failed. -/
theorem multi_claim_counterexample :
    multiHandle true [fun _ => some (1 : Int)] (0 : Int) = ([0], none) ∧
    (multiHandle true [fun _ => some (1 : Int)] (0 : Int)).2 ≠ some 1 := by
  constructor
  · rfl
  · decide

/-- C2 amended: with ContinueOnError=true (synchronous mode) Handle calls
every inner handler's Handle in list order even when some fail, and
always returns nil — inner errors are swallowed, never returned. -/
theorem multi_continue_on_error_amended {R E : Type}
    (handlers : List (R → Option E)) (r : R) :
    multiHandle true handlers r = (List.range handlers.length, none) := by
  rw [multiHandle, multiGo_true_spec, map_add_zero]

/-! ## Claim C8 -/

theorem compositeLevel_foldl_min : ∀ (ls : List (Option Int)) (a : Int),
    ls.foldl (fun acc o =>
        match o with
        | some lv => if lv < acc then lv else acc
        | none => acc) a
      = (ls.filterMap id).foldl min a := by
  intro ls
  induction ls with
  | nil => intro a; rfl
  | cons o rest ih =>
    intro a
    cases o with
    | none => simp only [List.foldl_cons, List.filterMap_cons]; exact ih a
    | some lv =>
      have hfm : List.filterMap id (some lv :: rest) = lv :: List.filterMap id rest := by
        simp
      rw [List.foldl_cons, hfm, List.foldl_cons, ih]
      congr 1
      show (if lv < a then lv else a) = min a lv
      rw [min_def]
      split_ifs <;> omega

/-- C8 counterexample: a composite whose single inner handler exposes
dynamic level LevelDisabled reports LevelPanic, not the minimum level
among the inner handlers that expose a dynamic level (which would be
LevelDisabled): the aggregation starts at LevelPanic and only ever
lowers it. -/
theorem composite_level_counterexample :
    compositeLevel [some LevelDisabled] = LevelPanic ∧ LevelPanic ≠ LevelDisabled := by
  constructor
  · decide
  · decide

/-- C8 amended: for the failover and round-robin composites (the multi
handler exposes no Level method at all), Level() returns the minimum of
LevelPanic and the levels of the inner handlers exposing a dynamic
level; a composite at Info and Debug therefore reports Debug, and with
no level-capable inner handler the result is LevelPanic. -/
theorem composite_level_amended :
    (∀ ls : List (Option Int),
        compositeLevel ls = (ls.filterMap id).foldl min LevelPanic) ∧
    compositeLevel [some LevelInfo, some LevelDebug] = LevelDebug ∧
    compositeLevel [] = LevelPanic := by
  refine ⟨fun ls => compositeLevel_foldl_min ls LevelPanic, by decide, rfl⟩

/-! ## Claim C1 -/

theorem runPipeFns_true {R E : Type} :
    ∀ (fns : List (R → R × Option E)) (r0 : R),
      (runPipeFns true fns r0).2.2 = none ∧
      (runPipeFns true fns r0).1 = pipeInputsSpec fns r0 := by
  intro fns
  induction fns with
  | nil => intro r0; exact ⟨rfl, rfl⟩
  | cons fn rest ih =>
    intro r0
    rcases hfn : fn r0 with ⟨r1, _ | e⟩ <;>
      · simp only [runPipeFns, pipeInputsSpec, hfn]
        obtain ⟨h1, h2⟩ := ih r1
        rcases hrec : runPipeFns true rest r1 with ⟨ins, fin, res⟩
        rw [hrec] at h1 h2
        simp_all

theorem runPipeFns_ok {R E : Type} (cont : Bool) :
    ∀ (fns : List (R → R × Option E)) (r0 : R),
      (runPipeFns cont fns r0).2.2 = none →
      (runPipeFns cont fns r0).1 = pipeInputsSpec fns r0 := by
  intro fns
  induction fns with
  | nil => intro r0 _; rfl
  | cons fn rest ih =>
    intro r0 h
    rcases hfn : fn r0 with ⟨r1, _ | e⟩
    · simp only [runPipeFns, pipeInputsSpec, hfn] at h ⊢
      rcases hrec : runPipeFns cont rest r1 with ⟨ins, fin, res⟩
      have := ih r1
      rw [hrec] at this
      simp_all
    · cases cont with
      | false =>
        simp only [runPipeFns, hfn] at h
        simp at h
      | true =>
        simp only [runPipeFns, pipeInputsSpec, hfn] at h ⊢
        rcases hrec : runPipeFns true rest r1 with ⟨ins, fin, res⟩
        have := ih r1
        rw [hrec] at this
        simp_all

/-- C1 counterexample: with ContinueOnError=false and a transform
function that fails, Handle returns the transform error and never
invokes the downstream handler, so it does not forward the record or
return the downstream handler's result (which here would be nil). -/
theorem pipe_claim_counterexample :
    pipeHandle false [fun _ => ((0 : Int), some (7 : Int))]
        (some (fun _ => (none : Option Int))) (5 : Int) = (some 7, none) ∧
    (some (7 : Int) : Option Int) ≠ none := by
  exact ⟨rfl, by decide⟩

/-- C1 amended: with a non-nil downstream handler, whenever
ContinueOnError is true or no transform function returns an error,
Handle feeds the cloned record through each transform function in list
order (each receiving the previous function's output) and then forwards
the original, untransformed record to the downstream handler, returning
the downstream handler's result; (when a transform fails with
ContinueOnError=false, Handle instead returns that error without
invoking the downstream handler, as the counterexample shows). -/
theorem pipe_forwards_original_amended {R E : Type} (cont : Bool)
    (fns : List (R → R × Option E)) (nh : R → Option E) (r : R)
    (h : cont = true ∨ (runPipeFns cont fns r).2.2 = none) :
    pipeHandle cont fns (some nh) r = (nh r, some r) ∧
    (runPipeFns cont fns r).1 = pipeInputsSpec fns r := by
  have hnone : (runPipeFns cont fns r).2.2 = none := by
    rcases h with h | h
    · subst h
      exact (runPipeFns_true fns r).1
    · exact h
  refine ⟨?_, runPipeFns_ok cont fns r hnone⟩
  rcases hrec : runPipeFns cont fns r with ⟨ins, fin, res⟩
  rw [hrec] at hnone
  simp only at hnone
  subst hnone
  simp [pipeHandle, hrec]

theorem pipe_forwards_original_witness :
    pipeHandle true [fun x => (x + 1, some (3 : Int))]
        (some (fun x => some (x * 2))) (5 : Int) = (some 10, some 5) ∧
    (runPipeFns true [fun x => (x + 1, some (3 : Int))] (5 : Int)).1 = [5] := by
  have h := pipe_forwards_original_amended true [fun x => (x + 1, some (3 : Int))]
      (fun x => some (x * 2)) (5 : Int) (Or.inl rfl)
  exact ⟨h.1.trans (by norm_num), h.2.trans rfl⟩

/-! ## Claim C4 -/

theorem failoverGo_spec {R E : Type} (r : R) :
    ∀ (hs : List (Bool × (R → Option E))) (i : Nat) (err : Option E),
      (∀ w, winIdx r hs = some w →
          failoverGo r i err hs =
            ((enabledIndices (hs.take w)).map (· + i) ++ [w + i], none)) ∧
      (winIdx r hs = none →
          failoverGo r i err hs = ((enabledIndices hs).map (· + i),
            match (enabledIndices hs).getLast? with
            | some j => (hs.getD j (false, fun _ => none)).2 r
            | none => err)) := by
  intro hs
  induction hs with
  | nil =>
    intro i err
    exact ⟨fun w hw => by simp [winIdx] at hw, fun _ => rfl⟩
  | cons a rest ih =>
    obtain ⟨en, h⟩ := a
    intro i err
    rcases hhr : h r with _ | e
    · cases en with
      | true =>
        have hw0 : winIdx r ((true, h) :: rest) = some 0 := by
          simp [winIdx, hhr]
        constructor
        · intro w hw
          rw [hw0] at hw
          obtain rfl : (0 : Nat) = w := by injection hw
          simp [failoverGo, hhr, enabledIndices]
        · intro hw
          rw [hw0] at hw
          exact absurd hw (by simp)
      | false =>
        have hwc : winIdx r ((false, h) :: rest) = (winIdx r rest).map (· + 1) := by
          simp [winIdx]
        have hgo : failoverGo r i err ((false, h) :: rest) =
            failoverGo r (i + 1) err rest := by
          simp [failoverGo]
        have hei : enabledIndices ((false, h) :: rest) =
            (enabledIndices rest).map (· + 1) := by
          simp [enabledIndices]
        constructor
        · intro w hw
          rw [hwc] at hw
          rcases hwr : winIdx r rest with _ | w'
          · rw [hwr] at hw
            exact absurd hw (by simp)
          · rw [hwr] at hw
            simp only [Option.map_some'] at hw
            obtain rfl : w' + 1 = w := by injection hw
            rw [hgo, (ih (i + 1) err).1 w' hwr, List.take_succ_cons]
            have he2 : enabledIndices ((false, h) :: rest.take w') =
                (enabledIndices (rest.take w')).map (· + 1) := by
              simp [enabledIndices]
            rw [he2, map_add_shift]
            refine congrArg₂ Prod.mk (congrArg₂ (· ++ ·) rfl ?_) rfl
            congr 1
            omega
        · intro hw
          rw [hwc] at hw
          have hwr : winIdx r rest = none := by
            rcases hx : winIdx r rest with _ | w'
            · rfl
            · rw [hx] at hw
              simp at hw
          rw [hgo, (ih (i + 1) err).2 hwr, hei, map_add_shift]
          refine congrArg₂ Prod.mk rfl ?_
          rw [List.getLast?_map]
          rcases (enabledIndices rest : List Nat).getLast? with _ | j
          · rfl
          · simp [List.getD_cons_succ]
    · cases en with
      | true =>
        have hwc : winIdx r ((true, h) :: rest) = (winIdx r rest).map (· + 1) := by
          simp [winIdx, hhr]
        have hei : enabledIndices ((true, h) :: rest) =
            0 :: (enabledIndices rest).map (· + 1) := by
          simp [enabledIndices]
        constructor
        · intro w hw
          rw [hwc] at hw
          rcases hwr : winIdx r rest with _ | w'
          · rw [hwr] at hw
            exact absurd hw (by simp)
          · rw [hwr] at hw
            simp only [Option.map_some'] at hw
            obtain rfl : w' + 1 = w := by injection hw
            have hrec := (ih (i + 1) (some e)).1 w' hwr
            simp only [failoverGo, hhr, hrec, List.take_succ_cons]
            have he2 : enabledIndices ((true, h) :: rest.take w') =
                0 :: (enabledIndices (rest.take w')).map (· + 1) := by
              simp [enabledIndices]
            rw [he2]
            simp only [List.map_cons, map_add_shift, List.cons_append]
            refine congrArg₂ Prod.mk ?_ rfl
            refine congrArg₂ List.cons (by omega) ?_
            refine congrArg₂ (· ++ ·) rfl ?_
            congr 1
            omega
        · intro hw
          rw [hwc] at hw
          have hwr : winIdx r rest = none := by
            rcases hx : winIdx r rest with _ | w'
            · rfl
            · rw [hx] at hw
              simp at hw
          have hrec := (ih (i + 1) (some e)).2 hwr
          simp only [failoverGo, hhr, hrec, hei, List.map_cons, map_add_shift]
          refine congrArg₂ Prod.mk (congrArg₂ List.cons (by omega) rfl) ?_
          rw [List.getLast?_cons, List.getLast?_map]
          rcases (enabledIndices rest : List Nat).getLast? with _ | j
          · simp [hhr]
          · simp [List.getD_cons_succ]
      | false =>
        have hwc : winIdx r ((false, h) :: rest) = (winIdx r rest).map (· + 1) := by
          simp [winIdx]
        have hgo : failoverGo r i err ((false, h) :: rest) =
            failoverGo r (i + 1) err rest := by
          simp [failoverGo]
        have hei : enabledIndices ((false, h) :: rest) =
            (enabledIndices rest).map (· + 1) := by
          simp [enabledIndices]
        constructor
        · intro w hw
          rw [hwc] at hw
          rcases hwr : winIdx r rest with _ | w'
          · rw [hwr] at hw
            exact absurd hw (by simp)
          · rw [hwr] at hw
            simp only [Option.map_some'] at hw
            obtain rfl : w' + 1 = w := by injection hw
            rw [hgo, (ih (i + 1) err).1 w' hwr, List.take_succ_cons]
            have he2 : enabledIndices ((false, h) :: rest.take w') =
                (enabledIndices (rest.take w')).map (· + 1) := by
              simp [enabledIndices]
            rw [he2, map_add_shift]
            refine congrArg₂ Prod.mk (congrArg₂ (· ++ ·) rfl ?_) rfl
            congr 1
            omega
        · intro hw
          rw [hwc] at hw
          have hwr : winIdx r rest = none := by
            rcases hx : winIdx r rest with _ | w'
            · rfl
            · rw [hx] at hw
              simp at hw
          rw [hgo, (ih (i + 1) err).2 hwr, hei, map_add_shift]
          refine congrArg₂ Prod.mk rfl ?_
          rw [List.getLast?_map]
          rcases (enabledIndices rest : List Nat).getLast? with _ | j
          · rfl
          · simp [List.getD_cons_succ]

/-- C4: failover Handle tries the inner handlers in list order,
attempting exactly those whose Enabled check passes; the first enabled
handler whose Handle returns no error (position w) ends the call
immediately with nil — the attempted indices are the enabled positions
before w followed by w, so no later handler is attempted — and when no
enabled handler succeeds every enabled handler is attempted and the
result is the error of the last attempted handler (nil when none was
attempted). -/
theorem failover_first_success_wins {R E : Type}
    (hs : List (Bool × (R → Option E))) (r : R) :
    (∀ w, winIdx r hs = some w →
        failoverHandle hs r = (enabledIndices (hs.take w) ++ [w], none)) ∧
    (winIdx r hs = none →
        failoverHandle hs r = (enabledIndices hs,
          match (enabledIndices hs).getLast? with
          | some j => (hs.getD j (false, fun _ => none)).2 r
          | none => none)) := by
  constructor
  · intro w hw
    have h1 := (failoverGo_spec r hs 0 none).1 w hw
    rw [failoverHandle, h1, map_add_zero]
    simp
  · intro hw
    have h2 := (failoverGo_spec r hs 0 none).2 hw
    rw [failoverHandle, h2, map_add_zero]

theorem failover_first_success_wins_witness :
    failoverHandle
      [((true : Bool), fun _ => some (1 : Int)), ((true : Bool), fun _ => some (2 : Int)),
        ((true : Bool), fun _ => (none : Option Int))] (0 : Int) = ([0, 1, 2], none) := by
  have h := (failover_first_success_wins
      [((true : Bool), fun _ => some (1 : Int)), ((true : Bool), fun _ => some (2 : Int)),
        ((true : Bool), fun _ => (none : Option Int))] (0 : Int)).1 2 rfl
  simpa [enabledIndices] using h

/-! ## Claim C5 -/

theorem rrGo_spec {R E : Type} (r : R) :
    ∀ (l : List (Bool × (R → Option E))) (i : Nat) (err : Option E),
      (∀ w, winIdx r l = some w → rrGo r i err l = (none, some (w + i))) ∧
      (winIdx r l = none → (rrGo r i err l).2 = none) := by
  intro l
  induction l with
  | nil =>
    intro i err
    exact ⟨fun w hw => by simp [winIdx] at hw, fun _ => rfl⟩
  | cons a rest ih =>
    obtain ⟨en, h⟩ := a
    intro i err
    rcases hhr : h r with _ | e
    · cases en with
      | true =>
        have hw0 : winIdx r ((true, h) :: rest) = some 0 := by
          simp [winIdx, hhr]
        constructor
        · intro w hw
          rw [hw0] at hw
          obtain rfl : (0 : Nat) = w := by injection hw
          simp [rrGo, hhr]
        · intro hw
          rw [hw0] at hw
          exact absurd hw (by simp)
      | false =>
        have hwc : winIdx r ((false, h) :: rest) = (winIdx r rest).map (· + 1) := by
          simp [winIdx]
        have hgo : rrGo r i err ((false, h) :: rest) = rrGo r (i + 1) err rest := by
          simp [rrGo]
        constructor
        · intro w hw
          rw [hwc] at hw
          rcases hwr : winIdx r rest with _ | w'
          · rw [hwr] at hw
            exact absurd hw (by simp)
          · rw [hwr] at hw
            simp only [Option.map_some'] at hw
            obtain rfl : w' + 1 = w := by injection hw
            rw [hgo, (ih (i + 1) err).1 w' hwr]
            congr 2
            omega
        · intro hw
          rw [hwc] at hw
          have hwr : winIdx r rest = none := by
            rcases hx : winIdx r rest with _ | w'
            · rfl
            · rw [hx] at hw
              simp at hw
          rw [hgo]
          exact (ih (i + 1) err).2 hwr
    · cases en with
      | true =>
        have hwc : winIdx r ((true, h) :: rest) = (winIdx r rest).map (· + 1) := by
          simp [winIdx, hhr]
        have hgo : rrGo r i err ((true, h) :: rest) = rrGo r (i + 1) (some e) rest := by
          simp [rrGo, hhr]
        constructor
        · intro w hw
          rw [hwc] at hw
          rcases hwr : winIdx r rest with _ | w'
          · rw [hwr] at hw
            exact absurd hw (by simp)
          · rw [hwr] at hw
            simp only [Option.map_some'] at hw
            obtain rfl : w' + 1 = w := by injection hw
            rw [hgo, (ih (i + 1) (some e)).1 w' hwr]
            congr 2
            omega
        · intro hw
          rw [hwc] at hw
          have hwr : winIdx r rest = none := by
            rcases hx : winIdx r rest with _ | w'
            · rfl
            · rw [hx] at hw
              simp at hw
          rw [hgo]
          exact (ih (i + 1) (some e)).2 hwr
      | false =>
        have hwc : winIdx r ((false, h) :: rest) = (winIdx r rest).map (· + 1) := by
          simp [winIdx]
        have hgo : rrGo r i err ((false, h) :: rest) = rrGo r (i + 1) err rest := by
          simp [rrGo]
        constructor
        · intro w hw
          rw [hwc] at hw
          rcases hwr : winIdx r rest with _ | w'
          · rw [hwr] at hw
            exact absurd hw (by simp)
          · rw [hwr] at hw
            simp only [Option.map_some'] at hw
            obtain rfl : w' + 1 = w := by injection hw
            rw [hgo, (ih (i + 1) err).1 w' hwr]
            congr 2
            omega
        · intro hw
          rw [hwc] at hw
          have hwr : winIdx r rest = none := by
            rcases hx : winIdx r rest with _ | w'
            · rfl
            · rw [hx] at hw
              simp at hw
          rw [hgo]
          exact (ih (i + 1) err).2 hwr

/-- C5: a round-robin Handle call scans in the rotated order
handlers[lastIndex:] + handlers[:lastIndex] (on a fresh handler the
rotation at cursor 0 is the handler list itself, i.e. scan order
[0,1,...]); when the first success of the scan is at rotated position w
the stored cursor becomes w and the call returns nil, so the next call
scans handlers[w:] + handlers[:w]; when no scanned handler succeeds the
cursor is unchanged. -/
theorem roundrobin_rotation {R E : Type} (hs : List (Bool × (R → Option E)))
    (last : Nat) (r : R) :
    (∀ w, winIdx r (rrRotation hs last) = some w → rrHandle hs last r = (none, w)) ∧
    (winIdx r (rrRotation hs last) = none → (rrHandle hs last r).2 = last) ∧
    rrRotation hs 0 = hs := by
  refine ⟨?_, ?_, by simp [rrRotation]⟩
  · intro w hw
    have h1 := (rrGo_spec r (rrRotation hs last) 0 none).1 w hw
    unfold rrHandle
    rw [h1]
    rfl
  · intro hw
    unfold rrHandle
    rcases hg : rrGo r 0 none (rrRotation hs last) with ⟨res, _ | w⟩
    · rfl
    · have h2 := (rrGo_spec r (rrRotation hs last) 0 none).2 hw
      rw [hg] at h2
      simp at h2

theorem roundrobin_rotation_witness :
    rrHandle
      [((true : Bool), fun (_ : Int) => some (9 : Int)),
        ((true : Bool), fun (_ : Int) => (none : Option Int)),
        ((true : Bool), fun (_ : Int) => some (8 : Int))] 0 (0 : Int) = (none, 1) ∧
    rrRotation
      [((true : Bool), fun (_ : Int) => some (9 : Int)),
        ((true : Bool), fun (_ : Int) => (none : Option Int)),
        ((true : Bool), fun (_ : Int) => some (8 : Int))] 1 =
      [((true : Bool), fun (_ : Int) => (none : Option Int)),
        ((true : Bool), fun (_ : Int) => some (8 : Int)),
        ((true : Bool), fun (_ : Int) => some (9 : Int))] := by
  constructor
  · exact (roundrobin_rotation
      [((true : Bool), fun (_ : Int) => some (9 : Int)),
        ((true : Bool), fun (_ : Int) => (none : Option Int)),
        ((true : Bool), fun (_ : Int) => some (8 : Int))] 0 (0 : Int)).1 1 rfl
  · rfl

end Slogx
